import Mathlib

/-!
Verification of the snakeer package manager's dependency-resolution core
(`snakeer/utils.py` and `snakeer/installer.py`) against its specification.

The Python source is shallowly embedded: pure helpers become Lean functions,
Python exceptions become `Except Unit` / `Option` results, the installer's
mutable state (the `project_packages.json` config, the `snakeer_modules`
directory tree and the `current_api` field) becomes an explicit state record
threaded through the operations, and the network is an explicit environment of
backend responses.
-/

namespace Snakeer

instance {ε α : Type} [DecidableEq ε] [DecidableEq α] : DecidableEq (Except ε α) := fun x y =>
  match x, y with
  | .error a, .error b => if h : a = b then .isTrue (by rw [h]) else .isFalse (by simp [h])
  | .ok a, .ok b => if h : a = b then .isTrue (by rw [h]) else .isFalse (by simp [h])
  | .error _, .ok _ => .isFalse (by simp)
  | .ok _, .error _ => .isFalse (by simp)

/-! ## String helpers

Python string primitives used by `utils.py`, modelled structurally over the
character list of a `String` so that everything reduces in the kernel.
-/

/-- Models Python `str.strip()` (whitespace stripped from both ends). -/
def pyStrip (s : String) : String :=
  ⟨((s.data.dropWhile Char.isWhitespace).reverse.dropWhile Char.isWhitespace).reverse⟩

/-- Models Python `str.startswith(p)`. -/
def pyStartsWith (s p : String) : Bool :=
  p.data.isPrefixOf s.data

/-- Models Python `str.endswith(p)`. -/
def pyEndsWith (s p : String) : Bool :=
  p.data.isSuffixOf s.data

/-- Models Python slicing `s[n:]`. -/
def pyDrop (s : String) (n : Nat) : String :=
  ⟨s.data.drop n⟩

/-- Helper for `splitDot`: accumulates the current component (reversed). -/
def splitDotGo : List Char → List Char → List String
  | [], acc => [⟨acc.reverse⟩]
  | c :: cs, acc => if c = '.' then ⟨acc.reverse⟩ :: splitDotGo cs [] else splitDotGo cs (c :: acc)

/-- Models Python `s.split(".")`: e.g. `"" ↦ [""]`, `"1.0" ↦ ["1","0"]`, `"1..2" ↦ ["1","","2"]`. -/
def splitDot (s : String) : List String :=
  splitDotGo s.data []

/-- Decimal value of a digit run; `none` if empty or a non-digit appears. -/
def digitsToNat : List Char → Option Nat
  | [] => none
  | [c] => if c.isDigit then some (c.toNat - 48) else none
  | c :: cs =>
    if c.isDigit then (digitsToNat cs).map (fun n => (c.toNat - 48) * 10 ^ cs.length + n)
    else none

/-- Models Python `int(s)` on a version component: optional surrounding
whitespace, optional sign, then decimal digits; `none` models the raised
`ValueError`. -/
def pyInt (s : String) : Option Int :=
  match (pyStrip s).data with
  | '-' :: ds => (digitsToNat ds).map (fun n => -(n : Int))
  | '+' :: ds => (digitsToNat ds).map (fun n => (n : Int))
  | ds => (digitsToNat ds).map (fun n => (n : Int))

/-! ## Version specs (`utils.py`) -/

/-- Embeds `parse_version_spec` (utils.py:12-30): strips the input, splits off
the operator prefix `>=` / `^` / `~`, recognises the literal `latest`, and
otherwise returns the whole text as an exact version.  The function is total:
it performs no validation of the version text. -/
def parse_version_spec (spec : String) : String × String :=
  let t := pyStrip spec
  if pyStartsWith t ">=" then (">=", pyDrop t 2)
  else if pyStartsWith t "^" then ("^", pyDrop t 1)
  else if pyStartsWith t "~" then ("~", pyDrop t 1)
  else if t = "latest" then ("latest", "")
  else ("=", t)

/-- Models `[int(x) for x in s.split(".")]`: `none` models the raised
`ValueError` when some dot-separated component is not an integer. -/
def parseParts (s : String) : Option (List Int) :=
  (splitDot s).mapM pyInt

/-- Models the zero-padding loop `while len(parts) < 3: parts.append(0)`. -/
def pad3 (l : List Int) : List Int :=
  l ++ List.replicate (3 - l.length) 0

/-- Python's lexicographic `<=` on integer lists (`v_parts >= sv_parts` in the
source is `pyListLe sv_parts v_parts`). -/
def pyListLe : List Int → List Int → Bool
  | [], _ => true
  | _ :: _, [] => false
  | a :: as, b :: bs => if a < b then true else if b < a then false else pyListLe as bs

/-- Embeds `version_satisfies` (utils.py:32-65).  `latest` always satisfies;
`=` is plain string equality; the comparison operators parse both version
texts (raising, modelled `.error ()`, on a non-integer component), zero-pad to
three components and compare lexicographically. -/
def version_satisfies (version spec : String) : Except Unit Bool :=
  match parse_version_spec spec with
  | (op, spec_version) =>
    if op = "latest" then .ok true
    else if op = "=" then .ok (version == spec_version)
    else
      match parseParts version, parseParts spec_version with
      | some vp, some svp =>
        let v := pad3 vp
        let sv := pad3 svp
        if op = ">=" then .ok (pyListLe sv v)
        else if op = "^" then .ok (v.getD 0 0 == sv.getD 0 0 && pyListLe sv v)
        else if op = "~" then
          .ok (v.getD 0 0 == sv.getD 0 0 && v.getD 1 0 == sv.getD 1 0 && pyListLe sv v)
        else .ok false
      | _, _ => .error ()

/-- Embeds `version_key` (utils.py:74-78), the sort key of
`find_best_version`: parsed components zero-padded to three; `none` models the
raised `ValueError`. -/
def version_key (v : String) : Option (List Int) :=
  (parseParts v).map pad3

/-- Total variant of `version_key` (meaningful whenever the parse succeeds),
used to state ordering facts. -/
def keyD (v : String) : List Int :=
  pad3 ((parseParts v).getD [])

/-! ## The version selector (`find_best_version`, utils.py:67-86)

`find_best_version` sorts the available versions by `version_key`, descending
(`sorted(..., key=version_key, reverse=True)`, a stable sort), and returns the
first element satisfying the spec.  Python's `sorted` raises if the key of any
element raises; otherwise the result is the standard characterisation of a
stable descending sort: the distinct keys in descending order, each key's
elements in input order.
-/

/-- First-occurrence deduplication: keeps the first copy of every value.
Used to state that duplicate inputs do not change `find_best_version`. -/
def dedupF {α : Type} [DecidableEq α] : List α → List α
  | [] => []
  | x :: xs => x :: (dedupF xs).filter (fun y => y != x)

/-- Inserts a key into a descending-sorted key list, before the first key that
is `≤` it (so equal keys keep their input order: a stable insertion). -/
def insertKeyDesc (k : List Int) : List (List Int) → List (List Int)
  | [] => [k]
  | k' :: ks => if pyListLe k' k then k :: k' :: ks else k' :: insertKeyDesc k ks

/-- Sorts a list of keys in descending lexicographic order. -/
def sortKeysDesc : List (List Int) → List (List Int)
  | [] => []
  | k :: ks => insertKeyDesc k (sortKeysDesc ks)

/-- The distinct keys of the candidate list, in descending order. -/
def ksOf (l : List String) : List (List Int) :=
  sortKeysDesc (dedupF (l.map keyD))

/-- Models `sorted(available_versions, key=version_key, reverse=True)`
(utils.py:80).  Python's sort is stable, so the result is exactly: for each
distinct key in descending order, the elements bearing that key in their
original input order. -/
def pySortedDesc (l : List String) : List String :=
  (ksOf l).flatMap (fun k => l.filter (fun v => keyD v == k))

/-- The scan loop of `find_best_version` (utils.py:82-84): the first element
whose satisfaction check returns true; an exception propagates. -/
def firstSat (f : String → Except Unit Bool) : List String → Except Unit (Option String)
  | [] => .ok none
  | v :: rest =>
    match f v with
    | .error e => .error e
    | .ok true => .ok (some v)
    | .ok false => firstSat f rest

/-- Embeds `find_best_version` (utils.py:67-86).  The sort computes
`version_key` for every element first, so a single unparseable candidate makes
the whole call raise (`.error ()`), before any satisfaction check runs. -/
def find_best_version (available_versions : List String) (spec : String) :
    Except Unit (Option String) :=
  if available_versions.all (fun v => (version_key v).isSome) then
    firstSat (fun v => version_satisfies v spec) (pySortedDesc available_versions)
  else .error ()

/-- Descending sortedness of a key list. -/
def SortedDesc (ks : List (List Int)) : Prop :=
  List.Pairwise (fun a b => pyListLe b a = true) ks

/-! ## The installer (`installer.py`)

State: the `project_packages.json` config (`snakeer_dependencies` =
`requested`, `installed_dependencies_versions` = `installed`, both insertion-
ordered dicts modelled as association lists), the `snakeer_modules` directory
(`modules`: package name to extracted directory contents) and the installer's
`current_api` field.  The network is an `Env` of per-backend responses, with
`none` modelling a raised exception.  Observable effects (network requests,
config record writes) are collected in an event trace.
-/

/-- A file inside a package directory.  `deps` models the parsed
`dependencies` field when the file is `metadata.json` (`none` = missing file
content, unreadable JSON, or no `dependencies` key). -/
structure FileEnt where
  name : String
  deps : Option (List (String × String))
deriving DecidableEq

/-- A top-level entry of an extracted package directory.  Directories are
modelled one level deep, enough for the single-root normalization. -/
inductive Ent where
  | file (f : FileEnt)
  | dir (name : String) (children : List FileEnt)
deriving DecidableEq

/-- A downloaded archive in the cache: its filename (extension dispatch), the
entries it extracts, and `failAfter = some k` modelling a corrupt archive
whose extraction raises after `k` entries have been written. -/
structure Archive where
  fname : String
  entries : List Ent
  failAfter : Option Nat
deriving DecidableEq

/-- The installer-visible mutable state. -/
structure St where
  current_api : String
  requested : List (String × String)
  installed : List (String × String)
  modules : List (String × List Ent)
deriving DecidableEq

/-- Observable events: network requests per attempted backend, and config
writes of installed versions. -/
inductive Ev where
  | fetchVersions (api pkg : String)
  | fetchArchive (api pkg ver : String)
  | record (pkg ver : String)
deriving DecidableEq

/-- Backend responses: `listVersions api pkg` models `fetch_versions` run
against one API base (`none` = any raised exception, `some vs` = the version
list it produces); `download api pkg ver` models `fetch_and_download` (`none`
= raise, `some ar` = archive cached successfully). -/
structure Env where
  listVersions : String → String → Option (List String)
  download : String → String → String → Option Archive

/-- Result of `install_package`, one constructor per distinct return
statement of installer.py:185-226 (`exn` models an uncaught exception,
`outOfFuel` is the recursion-fuel artefact of the embedding). -/
inductive InstallResult where
  | outOfFuel
  | exn
  | alreadyInstalled
  | notFound
  | noMatching
  | downloadFailed
  | extractFailed
  | installedNew
deriving DecidableEq

/-- Association-list lookup (Python dict access). -/
def alGet {α : Type} : List (String × α) → String → Option α
  | [], _ => none
  | (k', v') :: rest, k => if k' = k then some v' else alGet rest k

/-- Association-list update (Python dict assignment: replaces in place,
appends if absent). -/
def alSet {α : Type} : List (String × α) → String → α → List (String × α)
  | [], k, v => [(k, v)]
  | (k', v') :: rest, k, v => if k' = k then (k, v) :: rest else (k', v') :: alSet rest k v

/-- Association-list deletion (Python `del` / directory removal). -/
def alDel {α : Type} : List (String × α) → String → List (String × α)
  | [], _ => []
  | (k', v') :: rest, k => if k' = k then rest else (k', v') :: alDel rest k

/-- The fixed backend priority order of `_try_apis` (installer.py:39):
`apis = [self.VERCEL_API, self.NETLIFY_API]`. -/
def VERCEL_API : String := "https://snakeer.vercel.app/api"

def NETLIFY_API : String := "https://snakeer-package-api.netlify.app/.netlify/functions"

def API_LIST : List String := [VERCEL_API, NETLIFY_API]

/-- The loop of `_try_apis` (installer.py:41-49): attempts each API in order,
returning the first success together with the successful base, re-raising
(`none`) if the last one fails; also returns the list of attempted bases. -/
def tryApisGo {α : Type} (op : String → Option α) : List String → Option (α × String) × List String
  | [] => (none, [])
  | api :: rest =>
    match op api with
    | some r => (some (r, api), [api])
    | none =>
      let (res, tried) := tryApisGo op rest
      (res, api :: tried)

/-- Embeds `_try_apis` (installer.py:37-51): on success `current_api` is set
to the succeeding base; on total failure the last exception propagates
(`none`) and `current_api` is left unchanged.  The attempt list is always
`API_LIST` scanned from the front: `current_api` is never consulted. -/
def tryApis {α : Type} (s : St) (op : String → Option α) : Option α × St × List String :=
  match tryApisGo op API_LIST with
  | (some (r, api), tried) => (some r, { s with current_api := api }, tried)
  | (none, tried) => (none, s, tried)

/-- Embeds `_get_package_versions` (installer.py:80-95): `_try_apis` over
`fetch_versions`, with every exception caught and turned into `[]`. -/
def getPackageVersions (env : Env) (s : St) (name : String) : List String × St × List Ev :=
  match tryApis s (fun api => env.listVersions api name) with
  | (some vs, s', tried) => (vs, s', tried.map (fun api => Ev.fetchVersions api name))
  | (none, s', tried) => ([], s', tried.map (fun api => Ev.fetchVersions api name))

/-- Embeds `_download_package` (installer.py:97-123): `_try_apis` over
`fetch_and_download`, with every exception caught and turned into `None`. -/
def downloadPackage (env : Env) (s : St) (name ver : String) : Option Archive × St × List Ev :=
  match tryApis s (fun api => env.download api name ver) with
  | (res, s', tried) => (res, s', tried.map (fun api => Ev.fetchArchive api name ver))

/-- The single-root normalization (installer.py:144-149): if the freshly
extracted directory holds exactly one entry and it is a directory, its
contents are hoisted up and the wrapper removed. -/
def normalizeDir (items : List Ent) : List Ent :=
  match items with
  | [Ent.dir _ children] => children.map Ent.file
  | _ => items

/-- Embeds `_extract_package` (installer.py:125-154).  The existing package
directory is wiped and recreated first.  A `.zip`/`.tar.gz` archive extracts
its entries (a corrupt archive raises after `failAfter` entries, which is
caught: `False` is returned but whatever was extracted stays in place).  An
archive with any other extension matches neither `if` branch: nothing is
extracted and `True` is returned over the empty directory. -/
def extractPackage (ar : Archive) (s : St) (name : String) : Bool × St :=
  if pyEndsWith ar.fname ".zip" || pyEndsWith ar.fname ".tar.gz" then
    match ar.failAfter with
    | some k => (false, { s with modules := alSet s.modules name (ar.entries.take k) })
    | none => (true, { s with modules := alSet s.modules name (normalizeDir ar.entries) })
  else
    (true, { s with modules := alSet s.modules name [] })

/-- Embeds `_read_package_metadata` (installer.py:156-164) combined with the
`metadata and "dependencies" in metadata` guard of installer.py:177: the
parsed dependency dict of `snakeer_modules/<name>/metadata.json`, if any. -/
def findMetaDeps : List Ent → Option (List (String × String))
  | [] => none
  | Ent.file f :: rest => if f.name = "metadata.json" then f.deps else findMetaDeps rest
  | Ent.dir _ _ :: rest => findMetaDeps rest

def readMetaDeps (s : St) (name : String) : Option (List (String × String)) :=
  match alGet s.modules name with
  | none => none
  | some ents => findMetaDeps ents

/-- The dependency loop of `_install_dependencies` (installer.py:181-183):
for each declared dependency not reported installed by the config, run
`install_package`; its boolean result is ignored, but an uncaught exception
(or exhausted fuel) aborts the loop and propagates. -/
def depsLoop (recur : St → String → String → InstallResult × St × List Ev) :
    List (String × String) → St → List Ev → Option InstallResult × St × List Ev
  | [], s, tr => (none, s, tr)
  | (d, dsp) :: rest, s, tr =>
    if alGet s.installed d = none then
      match recur s d dsp with
      | (.exn, s', tr') => (some .exn, s', tr ++ tr')
      | (.outOfFuel, s', tr') => (some .outOfFuel, s', tr ++ tr')
      | (_, s', tr') => depsLoop recur rest s' (tr ++ tr')
    else depsLoop recur rest s tr

/-- The body of `install_package` past the already-installed check
(installer.py:196-226): version discovery, selection, fetch, extract, record,
then the dependency loop.  `_install_dependencies` (installer.py:166-183) is
inlined as `depsLoop`: its `installed` visited-list parameter is always
freshly created (`None` → `[name]`) and never consulted by the nested
`install_package` calls, so it has no observable effect; the actual cycle
guard is `config.is_installed`. -/
def installProceed (env : Env) (recur : St → String → String → InstallResult × St × List Ev)
    (s : St) (name spec : String) : InstallResult × St × List Ev :=
  match getPackageVersions env s name with
  | ([], s1, tr1) => (.notFound, s1, tr1)
  | (a0 :: arest, s1, tr1) =>
    match (if spec = "latest" then .ok (some a0)
           else find_best_version (a0 :: arest) spec : Except Unit (Option String)) with
    | .error _ => (.exn, s1, tr1)
    | .ok none => (.noMatching, s1, tr1)
    | .ok (some v) =>
      if v = "" then (.noMatching, s1, tr1)
      else
        match downloadPackage env s1 name v with
        | (none, s2, tr2) => (.downloadFailed, s2, tr1 ++ tr2)
        | (some ar, s2, tr2) =>
          match extractPackage ar s2 name with
          | (false, s3) => (.extractFailed, s3, tr1 ++ tr2)
          | (true, s3) =>
            match depsLoop recur
                ((readMetaDeps { s3 with installed := alSet s3.installed name v } name).getD [])
                { s3 with installed := alSet s3.installed name v } [] with
            | (some e, s5, tr3) => (e, s5, tr1 ++ tr2 ++ Ev.record name v :: tr3)
            | (none, s5, tr3) => (.installedNew, s5, tr1 ++ tr2 ++ Ev.record name v :: tr3)

/-- One step of `install_package` (installer.py:185-226), parameterised by
the recursive call used for dependencies: the already-installed short-circuit
(installer.py:190-194, with Python truthiness of `installed_version`),
falling through to `installProceed`. -/
def installCore (env : Env) (recur : St → String → String → InstallResult × St × List Ev)
    (s : St) (name spec : String) : InstallResult × St × List Ev :=
  match alGet s.installed name with
  | none => installProceed env recur s name spec
  | some iv =>
    if iv = "" then installProceed env recur s name spec
    else if spec = "latest" then (.alreadyInstalled, s, [])
    else
      match version_satisfies iv spec with
      | .error _ => (.exn, s, [])
      | .ok true => (.alreadyInstalled, s, [])
      | .ok false => installProceed env recur s name spec

/-- Embeds `install_package` (installer.py:185-226), with recursion fuel (the
Python recursion terminates because every recursive call is guarded by
`not is_installed` and records before recursing; the fuel makes this a total
Lean function). -/
def installPackage (env : Env) : Nat → St → String → String → InstallResult × St × List Ev
  | 0, s, _, _ => (.outOfFuel, s, [])
  | fuel + 1, s, name, spec =>
    installCore env (fun st d dsp => installPackage env fuel st d dsp) s name spec

/-- Embeds `remove_package` (installer.py:245-250): deletes the package's
directory if present; the config is untouched. -/
def removePackage (s : St) (name : String) : St :=
  match alGet s.modules name with
  | some _ => { s with modules := alDel s.modules name }
  | none => s

/-- Result of `update_package`. -/
inductive UpdateResult where
  | notADependency
  | ran (r : InstallResult)
deriving DecidableEq

/-- Embeds `update_package` (installer.py:252-261): look up the requested
spec (falsy — absent or empty — means "not in dependencies"), then
`remove_package` followed by `install_package` with that spec. -/
def updatePackage (env : Env) (fuel : Nat) (s : St) (name : String) :
    UpdateResult × St × List Ev :=
  match alGet s.requested name with
  | none => (.notADependency, s, [])
  | some sp =>
    if sp = "" then (.notADependency, s, [])
    else
      let s1 := removePackage s name
      match installPackage env fuel s1 name sp with
      | (r, s2, tr) => (.ran r, s2, tr)

/-! ## Concrete scenarios used by the verification -/

/-- Following the spec's words (section 4.1), not the source: version text is
well-formed iff it is a dot-separated sequence of one to three non-negative
integers. -/
def specValidVersionText (s : String) : Bool :=
  let parts := splitDot s
  decide (1 ≤ parts.length) && decide (parts.length ≤ 3) &&
    parts.all (fun p => !p.data.isEmpty && p.data.all Char.isDigit)

/-- A fresh project state: no requested dependencies, nothing installed. -/
def st0 : St := ⟨VERCEL_API, [], [], []⟩

/-- An environment in which every backend request raises. -/
def envNone : Env := ⟨fun _ _ => none, fun _ _ _ => none⟩

/-- An environment whose primary backend answers version discovery with an
empty version list. -/
def envEmptyList : Env :=
  ⟨fun api _ => if api = VERCEL_API then some [] else none, fun _ _ _ => none⟩

/-- A project in which `A` is requested at `latest`, recorded installed at
`1.0.0`, and present on disk. -/
def c1State : St :=
  ⟨VERCEL_API, [("A", "latest")], [("A", "1.0.0")], [("A", [Ent.file ⟨"main.py", none⟩])]⟩

/-- A zip archive that is corrupt: extraction raises after one of its two
entries has been written. -/
def c2zip : Archive := ⟨"p-1.0.0-p.zip", [Ent.file ⟨"a.py", none⟩, Ent.file ⟨"b.py", none⟩], some 1⟩

/-- An intact archive whose filename ends in neither `.zip` nor `.tar.gz`. -/
def c2tar : Archive := ⟨"p-1.0.0-p.tar", [Ent.file ⟨"a.py", none⟩], none⟩

/-- An operation that fails on the primary backend and succeeds on the
secondary. -/
def c4op1 : String → Option String := fun api => if api = VERCEL_API then none else some "ok"

/-- An operation that succeeds on both backends, with distinguishable
results. -/
def c4op2 : String → Option String :=
  fun api => if api = VERCEL_API then some "from-vercel" else some "from-netlify"

/-- A project with `A` recorded installed at `1.0.0`. -/
def c7State : St := ⟨VERCEL_API, [], [("A", "1.0.0")], []⟩

/-- Contents of package `A`: a metadata file declaring a dependency on `B`. -/
def metaA : List Ent := [Ent.file ⟨"metadata.json", some [("B", "latest")]⟩]

/-- Contents of package `B`: a metadata file declaring a dependency on `A`. -/
def metaB : List Ent := [Ent.file ⟨"metadata.json", some [("A", "latest")]⟩]

/-- A registry holding the mutually dependent packages `A` and `B`, each at
version `1.0.0`, served by the primary backend. -/
def env8 : Env :=
  ⟨fun api pkg => if api = VERCEL_API ∧ (pkg = "A" ∨ pkg = "B") then some ["1.0.0"] else none,
   fun api pkg ver =>
     if api = VERCEL_API ∧ ver = "1.0.0" then
       (if pkg = "A" then some ⟨"A-1.0.0.zip", metaA, none⟩
        else if pkg = "B" then some ⟨"B-1.0.0.zip", metaB, none⟩ else none)
     else none⟩

/-! ## Order lemmas for `pyListLe` -/

theorem pyListLe_refl (l : List Int) : pyListLe l l = true := by
  induction l with
  | nil => rfl
  | cons a as ih => simp [pyListLe, ih]

theorem pyListLe_total (a b : List Int) : pyListLe a b = true ∨ pyListLe b a = true := by
  induction a generalizing b with
  | nil => exact .inl rfl
  | cons x xs ih =>
    cases b with
    | nil => exact .inr rfl
    | cons y ys =>
      rcases lt_trichotomy x y with h | h | h
      · left; simp [pyListLe, h]
      · subst h
        rcases ih ys with h' | h'
        · left; simp [pyListLe, h']
        · right; simp [pyListLe, h']
      · right; simp [pyListLe, h]

theorem pyListLe_antisymm {a b : List Int} (hab : pyListLe a b = true)
    (hba : pyListLe b a = true) : a = b := by
  induction a generalizing b with
  | nil =>
    cases b with
    | nil => rfl
    | cons y ys => simp [pyListLe] at hba
  | cons x xs ih =>
    cases b with
    | nil => simp [pyListLe] at hab
    | cons y ys =>
      rcases lt_trichotomy x y with h | h | h
      · simp [pyListLe, h, not_lt.mpr h.le, ne_of_gt h] at hba
      · subst h
        simp only [pyListLe, lt_irrefl, if_false] at hab hba
        rw [ih hab hba]
      · simp [pyListLe, h, not_lt.mpr h.le, ne_of_gt h] at hab

theorem pyListLe_trans {a b c : List Int} (hab : pyListLe a b = true)
    (hbc : pyListLe b c = true) : pyListLe a c = true := by
  induction a generalizing b c with
  | nil => rfl
  | cons x xs ih =>
    cases b with
    | nil => simp [pyListLe] at hab
    | cons y ys =>
      cases c with
      | nil => simp [pyListLe] at hbc
      | cons z zs =>
        simp only [pyListLe] at hab hbc ⊢
        rcases lt_trichotomy x y with h1 | h1 | h1
        · rcases lt_trichotomy y z with h2 | h2 | h2
          · simp [lt_trans h1 h2]
          · subst h2; simp [h1]
          · simp [h2, not_lt.mpr h2.le, ne_of_gt h2] at hbc
        · subst h1
          rcases lt_trichotomy x z with h2 | h2 | h2
          · simp [h2]
          · subst h2
            simp only [lt_irrefl, if_false] at hab hbc ⊢
            exact ih hab hbc
          · simp [h2, not_lt.mpr h2.le, ne_of_gt h2] at hbc
        · simp [h1, not_lt.mpr h1.le, ne_of_gt h1] at hab

/-! ## Lemmas about `dedupF` -/

theorem mem_dedupF {α : Type} [DecidableEq α] {x : α} {l : List α} :
    x ∈ dedupF l ↔ x ∈ l := by
  induction l with
  | nil => simp [dedupF]
  | cons a as ih =>
    by_cases hx : x = a
    · subst hx; simp [dedupF]
    · simp [dedupF, List.mem_filter, hx, ih]

theorem nodup_dedupF {α : Type} [DecidableEq α] (l : List α) : (dedupF l).Nodup := by
  induction l with
  | nil => simp [dedupF]
  | cons a as ih =>
    simp only [dedupF, List.nodup_cons]
    constructor
    · intro hmem
      have := (List.mem_filter.mp hmem).2
      simp at this
    · exact ih.filter _

theorem dedupF_filter {α : Type} [DecidableEq α] (p : α → Bool) (l : List α) :
    dedupF (l.filter p) = (dedupF l).filter p := by
  induction l with
  | nil => simp [dedupF]
  | cons a as ih =>
    by_cases hp : p a = true
    · rw [List.filter_cons_of_pos hp]
      simp only [dedupF, ih, List.filter_filter]
      rw [List.filter_cons_of_pos hp, List.filter_filter]
      congr 1
      apply List.filter_congr
      intro x _
      exact Bool.and_comm _ _
    · rw [List.filter_cons_of_neg hp]
      simp only [dedupF, ih]
      rw [List.filter_cons_of_neg hp, List.filter_filter]
      apply List.filter_congr
      intro x _
      by_cases hxa : x = a
      · subst hxa
        simp [hp]
      · simp [hxa]

/-! ## Lemmas about the key sort -/
theorem insertKeyDesc_perm (k : List Int) (ks : List (List Int)) :
    List.Perm (insertKeyDesc k ks) (k :: ks) := by
  induction ks with
  | nil => exact List.Perm.refl _
  | cons k' ks' ih =>
    simp only [insertKeyDesc]
    split
    · exact List.Perm.refl _
    · exact (ih.cons k').trans (List.Perm.swap k k' ks')

theorem sortKeysDesc_perm (ks : List (List Int)) : List.Perm (sortKeysDesc ks) ks := by
  induction ks with
  | nil => exact List.Perm.refl _
  | cons k ks' ih => exact (insertKeyDesc_perm k (sortKeysDesc ks')).trans (ih.cons k)

theorem mem_insertKeyDesc {x k : List Int} {ks : List (List Int)} :
    x ∈ insertKeyDesc k ks ↔ x = k ∨ x ∈ ks := by
  rw [(insertKeyDesc_perm k ks).mem_iff]; simp

theorem sortedDesc_insertKeyDesc {k : List Int} {ks : List (List Int)}
    (h : SortedDesc ks) : SortedDesc (insertKeyDesc k ks) := by
  induction ks with
  | nil => simp [insertKeyDesc, SortedDesc]
  | cons k' ks' ih =>
    simp only [insertKeyDesc]
    rcases List.pairwise_cons.mp h with ⟨hk', hks'⟩
    split
    · rename_i hle
      refine List.pairwise_cons.mpr ⟨?_, h⟩
      intro b hb
      rcases List.mem_cons.mp hb with rfl | hb
      · exact hle
      · exact pyListLe_trans (hk' b hb) hle
    · rename_i hnle
      have hle : pyListLe k k' = true := by
        rcases pyListLe_total k k' with h' | h'
        · exact h'
        · exact absurd h' hnle
      refine List.pairwise_cons.mpr ⟨?_, ih hks'⟩
      intro b hb
      rcases mem_insertKeyDesc.mp hb with rfl | hb
      · exact hle
      · exact hk' b hb

theorem sortedDesc_sortKeysDesc (ks : List (List Int)) : SortedDesc (sortKeysDesc ks) := by
  induction ks with
  | nil => exact List.Pairwise.nil
  | cons k ks' ih => exact sortedDesc_insertKeyDesc ih

theorem nodup_ksOf (l : List String) : (ksOf l).Nodup :=
  (sortKeysDesc_perm _).nodup_iff.mpr (nodup_dedupF _)

theorem sortedDesc_ksOf (l : List String) : SortedDesc (ksOf l) :=
  sortedDesc_sortKeysDesc _

theorem mem_ksOf {l : List String} {k : List Int} :
    k ∈ ksOf l ↔ ∃ v ∈ l, keyD v = k := by
  rw [ksOf, (sortKeysDesc_perm _).mem_iff, mem_dedupF]
  simp [eq_comm]

theorem keyD_mem_ksOf {l : List String} {v : String} (hv : v ∈ l) : keyD v ∈ ksOf l :=
  mem_ksOf.mpr ⟨v, hv, rfl⟩

/-! ## Lemmas about the satisfaction scan -/

theorem firstSat_append (f : String → Except Unit Bool) (l₁ l₂ : List String) :
    firstSat f (l₁ ++ l₂) =
      match firstSat f l₁ with
      | .ok none => firstSat f l₂
      | r => r := by
  induction l₁ with
  | nil => simp [firstSat]
  | cons v rest ih =>
    simp only [List.cons_append, firstSat]
    cases f v with
    | error e => rfl
    | ok b => cases b <;> simp [ih]

theorem firstSat_eq_some {f : String → Except Unit Bool} {l : List String} {r : String}
    (h : firstSat f l = .ok (some r)) : f r = .ok true ∧ r ∈ l := by
  induction l with
  | nil => simp [firstSat] at h
  | cons v rest ih =>
    simp only [firstSat] at h
    cases hf : f v with
    | error e => rw [hf] at h; exact absurd h (by simp)
    | ok b =>
      cases b
      · rw [hf] at h
        rcases ih h with ⟨h1, h2⟩
        exact ⟨h1, List.mem_cons_of_mem _ h2⟩
      · rw [hf] at h
        simp only [Except.ok.injEq, Option.some.injEq] at h
        subst h
        exact ⟨hf, List.mem_cons_self _ _⟩

theorem firstSat_eq_none {f : String → Except Unit Bool} {l : List String}
    (h : firstSat f l = .ok none) : ∀ v ∈ l, f v = .ok false := by
  induction l with
  | nil => simp
  | cons v rest ih =>
    simp only [firstSat] at h
    cases hf : f v with
    | error e => rw [hf] at h; exact absurd h (by simp)
    | ok b =>
      cases b
      · rw [hf] at h
        intro w hw
        rcases List.mem_cons.mp hw with rfl | hw
        · exact hf
        · exact ih h w hw
      · rw [hf] at h; exact absurd h (by simp)

theorem firstSat_of_all_false {f : String → Except Unit Bool} {l : List String}
    (h : ∀ v ∈ l, f v = .ok false) : firstSat f l = .ok none := by
  induction l with
  | nil => rfl
  | cons v rest ih =>
    simp only [firstSat, h v (List.mem_cons_self _ _)]
    exact ih (fun w hw => h w (List.mem_cons_of_mem _ hw))

theorem firstSat_filter_ne {f : String → Except Unit Bool} {x : String}
    (hx : f x = .ok false) (l : List String) :
    firstSat f (l.filter (fun y => y != x)) = firstSat f l := by
  induction l with
  | nil => rfl
  | cons v rest ih =>
    by_cases hv : v = x
    · subst hv
      rw [List.filter_cons_of_neg (by simp)]
      simp only [firstSat, hx]
      exact ih
    · rw [List.filter_cons_of_pos (by simp [bne_iff_ne, hv])]
      simp only [firstSat, ih]

theorem firstSat_dedupF (f : String → Except Unit Bool) (l : List String) :
    firstSat f (dedupF l) = firstSat f l := by
  induction l with
  | nil => rfl
  | cons v rest ih =>
    simp only [dedupF, firstSat]
    cases hf : f v with
    | error e => rfl
    | ok b =>
      cases b
      · rw [firstSat_filter_ne hf, ih]
      · rfl

/-! ## The stable-sort characterisation -/

theorem flatMap_classes_perm (key : String → List Int) :
    ∀ (ks : List (List Int)) (l : List String), ks.Nodup → (∀ v ∈ l, key v ∈ ks) →
      List.Perm (ks.flatMap (fun k => l.filter (fun v => key v == k))) l := by
  intro ks
  induction ks with
  | nil =>
    intro l _ hcov
    cases l with
    | nil => exact List.Perm.refl _
    | cons v vs => exact absurd (hcov v (List.mem_cons_self _ _)) (by simp)
  | cons k ks' ih =>
    intro l hnd hcov
    rcases List.nodup_cons.mp hnd with ⟨hk, hnd'⟩
    simp only [List.flatMap_cons]
    have hrw : ks'.flatMap (fun k' => l.filter (fun v => key v == k')) =
        ks'.flatMap (fun k' => (l.filter (fun v => !(key v == k))).filter
          (fun v => key v == k')) := by
      apply List.flatMap_congr
      intro k' hk'
      rw [List.filter_filter]
      apply List.filter_congr
      intro v _
      by_cases hv : key v = k'
      · have hne : k' ≠ k := fun h => hk (h ▸ hk')
        simp [hv, hne]
      · simp [hv]
    rw [hrw]
    have hperm := ih (l.filter (fun v => !(key v == k))) hnd' ?_
    · exact (hperm.append_left _).trans (List.filter_append_perm _ l)
    · intro v hv
      rcases List.mem_filter.mp hv with ⟨hvl, hvk⟩
      have := hcov v hvl
      rcases List.mem_cons.mp this with h | h
      · simp [h] at hvk
      · exact h

theorem pySortedDesc_perm (l : List String) : List.Perm (pySortedDesc l) l :=
  flatMap_classes_perm keyD (ksOf l) l (nodup_ksOf l) (fun _ hv => keyD_mem_ksOf hv)

/-- The first satisfying element of the class-decomposed scan satisfies, is an
element, and its key dominates the key of every satisfying element whose key
occurs among the scanned keys. -/
theorem flatScan_max (f : String → Except Unit Bool) (key : String → List Int) :
    ∀ (ks : List (List Int)) (l : List String) (r : String),
      SortedDesc ks →
      firstSat f (ks.flatMap (fun k => l.filter (fun v => key v == k))) = .ok (some r) →
      f r = .ok true ∧ r ∈ l ∧
        ∀ v ∈ l, key v ∈ ks → f v = .ok true → pyListLe (key v) (key r) = true := by
  intro ks
  induction ks with
  | nil =>
    intro l r _ h
    simp [firstSat] at h
  | cons k ks' ih =>
    intro l r hsort h
    rcases List.pairwise_cons.mp hsort with ⟨hk, hsort'⟩
    rw [List.flatMap_cons, firstSat_append] at h
    rcases hcls : firstSat f (l.filter (fun v => key v == k)) with e | ob
    · rw [hcls] at h; exact absurd h (by simp)
    · cases ob with
      | some r₀ =>
        rw [hcls] at h
        simp only [Except.ok.injEq, Option.some.injEq] at h
        subst h
        rcases firstSat_eq_some hcls with ⟨hfr, hrmem⟩
        rcases List.mem_filter.mp hrmem with ⟨hrl, hrk⟩
        have hrk' : key r₀ = k := by simpa using hrk
        refine ⟨hfr, hrl, ?_⟩
        intro v hv hvk _
        rcases List.mem_cons.mp hvk with h' | h'
        · rw [h', hrk']; exact pyListLe_refl k
        · rw [hrk']; exact hk (key v) h'
      | none =>
        rw [hcls] at h
        have hall := firstSat_eq_none hcls
        rcases ih l r hsort' h with ⟨hfr, hrl, hmax⟩
        refine ⟨hfr, hrl, ?_⟩
        intro v hv hvk hfv
        rcases List.mem_cons.mp hvk with h' | h'
        · exfalso
          have : v ∈ l.filter (fun v => key v == k) :=
            List.mem_filter.mpr ⟨hv, by simp [h']⟩
          rw [hall v this] at hfv
          exact absurd hfv (by simp)
        · exact hmax v hv h' hfv

/-- Scanning a class decomposition is unchanged when every class is
first-occurrence-deduplicated. -/
theorem flatScan_dedup (f : String → Except Unit Bool) (C : List Int → List String) :
    ∀ ks : List (List Int),
      firstSat f (ks.flatMap (fun k => dedupF (C k))) = firstSat f (ks.flatMap C) := by
  intro ks
  induction ks with
  | nil => rfl
  | cons k ks' ih =>
    simp only [List.flatMap_cons, firstSat_append, firstSat_dedupF, ih]

/-! ## Characterisation of `find_best_version` -/

theorem all_dedupF {α : Type} [DecidableEq α] (p : α → Bool) (l : List α) :
    ((dedupF l).all p = true) ↔ (l.all p = true) := by
  simp only [List.all_eq_true]
  constructor <;> intro h v hv
  · exact h v (mem_dedupF.mpr hv)
  · exact h v (mem_dedupF.mp hv)

theorem ksOf_dedupF (l : List String) : ksOf (dedupF l) = ksOf l := by
  haveI : IsAntisymm (List Int) (fun a b => pyListLe b a = true) :=
    ⟨fun _ _ h1 h2 => pyListLe_antisymm h2 h1⟩
  apply List.eq_of_perm_of_sorted (r := fun a b => pyListLe b a = true)
  · refine (List.perm_ext_iff_of_nodup (nodup_ksOf _) (nodup_ksOf _)).mpr ?_
    intro k
    rw [mem_ksOf, mem_ksOf]
    constructor
    · rintro ⟨v, hv, rfl⟩; exact ⟨v, mem_dedupF.mp hv, rfl⟩
    · rintro ⟨v, hv, rfl⟩; exact ⟨v, mem_dedupF.mpr hv, rfl⟩
  · exact sortedDesc_ksOf _
  · exact sortedDesc_ksOf _

theorem find_best_version_eq_some {l : List String} {spec r : String}
    (h : find_best_version l spec = .ok (some r)) :
    version_satisfies r spec = .ok true ∧ r ∈ l ∧
      ∀ v ∈ l, version_satisfies v spec = .ok true → pyListLe (keyD v) (keyD r) = true := by
  unfold find_best_version at h
  by_cases hall : l.all (fun v => (version_key v).isSome) = true
  · rw [if_pos hall] at h
    unfold pySortedDesc at h
    have := flatScan_max (fun v => version_satisfies v spec) keyD (ksOf l) l r
      (sortedDesc_ksOf l) h
    exact ⟨this.1, this.2.1, fun v hv hs => this.2.2 v hv (keyD_mem_ksOf hv) hs⟩
  · rw [if_neg hall] at h
    exact absurd h (by simp)

theorem find_best_version_eq_none {l : List String} {spec : String}
    (h : find_best_version l spec = .ok none) :
    ∀ v ∈ l, version_satisfies v spec ≠ .ok true := by
  unfold find_best_version at h
  by_cases hall : l.all (fun v => (version_key v).isSome) = true
  · rw [if_pos hall] at h
    intro v hv hsat
    have hv' : v ∈ pySortedDesc l := (pySortedDesc_perm l).mem_iff.mpr hv
    have := firstSat_eq_none h v hv'
    rw [this] at hsat
    exact absurd hsat (by simp)
  · rw [if_neg hall] at h
    exact absurd h (by simp)

theorem find_best_version_none_of {l : List String} {spec : String}
    (hkeys : ∀ v ∈ l, (version_key v).isSome = true)
    (hnoerr : ∀ v ∈ l, version_satisfies v spec ≠ .error ())
    (hnosat : ∀ v ∈ l, version_satisfies v spec ≠ .ok true) :
    find_best_version l spec = .ok none := by
  unfold find_best_version
  rw [if_pos (List.all_eq_true.mpr hkeys)]
  apply firstSat_of_all_false
  intro v hv
  have hvl : v ∈ l := (pySortedDesc_perm l).mem_iff.mp hv
  rcases he : version_satisfies v spec with e | b
  · cases e; exact absurd he (hnoerr v hvl)
  · cases b
    · rfl
    · exact absurd he (hnosat v hvl)

theorem find_best_version_dedupF (l : List String) (spec : String) :
    find_best_version (dedupF l) spec = find_best_version l spec := by
  unfold find_best_version
  by_cases hall : l.all (fun v => (version_key v).isSome) = true
  · rw [if_pos hall, if_pos ((all_dedupF _ _).mpr hall)]
    unfold pySortedDesc
    rw [ksOf_dedupF]
    have hcls : (ksOf l).flatMap (fun k => (dedupF l).filter (fun v => keyD v == k)) =
        (ksOf l).flatMap (fun k => dedupF (l.filter (fun v => keyD v == k))) := by
      apply List.flatMap_congr
      intro k _
      rw [dedupF_filter]
    rw [hcls, flatScan_dedup]
  · rw [if_neg (fun h => hall ((all_dedupF _ _).mp h)), if_neg hall]

/-! ## Preservation of installed entries across installs -/

theorem alGet_alSet_ne {α : Type} {l : List (String × α)} {n k : String} {v : α}
    (h : k ≠ n) : alGet (alSet l n v) k = alGet l k := by
  induction l with
  | nil =>
    simp only [alSet, alGet]
    rw [if_neg (fun hh => h hh.symm)]
  | cons p rest ih =>
    rcases p with ⟨k', v'⟩
    by_cases hk : k' = n
    · subst hk
      simp only [alSet, if_pos rfl, alGet]
      rw [if_neg (fun hh => h hh.symm), if_neg (fun hh => h hh.symm)]
    · simp only [alSet, if_neg hk, alGet, ih]

theorem alGet_alSet_self {α : Type} (l : List (String × α)) (n : String) (v : α) :
    alGet (alSet l n v) n = some v := by
  induction l with
  | nil => simp [alSet, alGet]
  | cons p rest ih =>
    rcases p with ⟨k', v'⟩
    by_cases hk : k' = n
    · subst hk; simp [alSet, alGet]
    · simp [alSet, hk, alGet, ih]

theorem tryApis_installed {α : Type} (s : St) (op : String → Option α) :
    (tryApis s op).2.1.installed = s.installed := by
  unfold tryApis
  rcases tryApisGo op API_LIST with ⟨res, tried⟩
  cases res with
  | none => rfl
  | some p => rcases p with ⟨r, api⟩; rfl

theorem getPackageVersions_installed (env : Env) (s : St) (name : String) :
    (getPackageVersions env s name).2.1.installed = s.installed := by
  unfold getPackageVersions
  have := tryApis_installed s (fun api => env.listVersions api name)
  rcases h : tryApis s (fun api => env.listVersions api name) with ⟨res, s', tried⟩
  rw [h] at this
  cases res <;> exact this

theorem downloadPackage_installed (env : Env) (s : St) (name ver : String) :
    (downloadPackage env s name ver).2.1.installed = s.installed := by
  unfold downloadPackage
  have := tryApis_installed s (fun api => env.download api name ver)
  rcases h : tryApis s (fun api => env.download api name ver) with ⟨res, s', tried⟩
  rw [h] at this
  exact this

theorem extractPackage_installed (ar : Archive) (s : St) (name : String) :
    (extractPackage ar s name).2.installed = s.installed := by
  unfold extractPackage
  split
  · rcases ar.failAfter with _ | k <;> rfl
  · rfl

/-- Installed entries survive the dependency loop, provided the recursive
call preserves entries of packages other than the one it installs (the loop
only recurses into dependencies the config does not report installed). -/
theorem depsLoopPreserves (recur : St → String → String → InstallResult × St × List Ev)
    (hrec : ∀ (s : St) (d dsp : String) (r : InstallResult) (s' : St) (tr : List Ev),
      recur s d dsp = (r, s', tr) →
      ∀ k v, k ≠ d → alGet s.installed k = some v → alGet s'.installed k = some v) :
    ∀ (deps : List (String × String)) (s : St) (tr : List Ev)
      (o : Option InstallResult) (s' : St) (tr' : List Ev),
      depsLoop recur deps s tr = (o, s', tr') →
      ∀ k v, alGet s.installed k = some v → alGet s'.installed k = some v := by
  intro deps
  induction deps with
  | nil =>
    intro s tr o s' tr' h k v hk
    cases h; exact hk
  | cons dp rest ihd =>
    intro s tr o s' tr' h k v hk
    rcases dp with ⟨d, dsp⟩
    simp only [depsLoop] at h
    by_cases hd : alGet s.installed d = none
    · rw [if_pos hd] at h
      have hkd : k ≠ d := by
        intro hkd; rw [hkd, hd] at hk; exact absurd hk (by simp)
      rcases hrec' : recur s d dsp with ⟨rr, ss, trr⟩
      have hpres := hrec s d dsp rr ss trr hrec' k v hkd hk
      rw [hrec'] at h
      cases rr with
      | exn => cases h; exact hpres
      | outOfFuel => cases h; exact hpres
      | alreadyInstalled => exact ihd ss _ o s' tr' h k v hpres
      | notFound => exact ihd ss _ o s' tr' h k v hpres
      | noMatching => exact ihd ss _ o s' tr' h k v hpres
      | downloadFailed => exact ihd ss _ o s' tr' h k v hpres
      | extractFailed => exact ihd ss _ o s' tr' h k v hpres
      | installedNew => exact ihd ss _ o s' tr' h k v hpres
    · rw [if_neg hd] at h
      exact ihd s tr o s' tr' h k v hk

theorem installProceedPreserves (env : Env) (fuel : Nat)
    (ih : ∀ (s : St) (n sp : String) (r : InstallResult) (s' : St) (tr : List Ev),
      installPackage env fuel s n sp = (r, s', tr) →
      ∀ k v, k ≠ n → alGet s.installed k = some v → alGet s'.installed k = some v)
    (s : St) (n sp : String) (r : InstallResult) (s' : St) (tr : List Ev)
    (hp : installProceed env (fun st d dsp => installPackage env fuel st d dsp) s n sp
      = (r, s', tr))
    (k v : String) (hkn : k ≠ n) (hk : alGet s.installed k = some v) :
    alGet s'.installed k = some v := by
  have hdeps := depsLoopPreserves (fun st d dsp => installPackage env fuel st d dsp)
    (fun s d dsp r s' tr h => ih s d dsp r s' tr h)
  unfold installProceed at hp
  split at hp
  · rename_i s1 tr1 heq
    have h1 : s1.installed = s.installed := by
      have := getPackageVersions_installed env s n
      rw [heq] at this
      exact this
    cases hp
    rw [h1]; exact hk
  · rename_i a0 arest s1 tr1 heq
    have h1 : s1.installed = s.installed := by
      have := getPackageVersions_installed env s n
      rw [heq] at this
      exact this
    split at hp
    · cases hp; rw [h1]; exact hk
    · cases hp; rw [h1]; exact hk
    · rename_i ver hver
      split at hp
      · cases hp; rw [h1]; exact hk
      · split at hp
        · rename_i s2 tr2 heq2
          have h2 : s2.installed = s1.installed := by
            have := downloadPackage_installed env s1 n ver
            rw [heq2] at this
            exact this
          cases hp
          rw [h2, h1]; exact hk
        · rename_i ar s2 tr2 heq2
          have h2 : s2.installed = s1.installed := by
            have := downloadPackage_installed env s1 n ver
            rw [heq2] at this
            exact this
          split at hp
          · rename_i s3 heq3
            have h3 : s3.installed = s2.installed := by
              have := extractPackage_installed ar s2 n
              rw [heq3] at this
              exact this
            cases hp
            rw [h3, h2, h1]; exact hk
          · rename_i s3 heq3
            have h3 : s3.installed = s2.installed := by
              have := extractPackage_installed ar s2 n
              rw [heq3] at this
              exact this
            have hk4 : alGet (alSet s3.installed n ver) k = some v := by
              rw [alGet_alSet_ne hkn, h3, h2, h1]; exact hk
            split at hp
            · rename_i e s5 tr5 heq5
              cases hp
              exact hdeps _ _ _ _ _ _ heq5 k v hk4
            · rename_i s5 tr5 heq5
              cases hp
              exact hdeps _ _ _ _ _ _ heq5 k v hk4

/-- Installed entries of other packages survive an `install_package` call. -/
theorem installPreserves (env : Env) :
    ∀ (fuel : Nat) (s : St) (n sp : String) (r : InstallResult) (s' : St) (tr : List Ev),
      installPackage env fuel s n sp = (r, s', tr) →
      ∀ k v, k ≠ n → alGet s.installed k = some v → alGet s'.installed k = some v := by
  intro fuel
  induction fuel with
  | zero =>
    intro s n sp r s' tr h k v _ hk
    cases h; exact hk
  | succ fuel ih =>
    intro s n sp r s' tr h k v hkn hk
    simp only [installPackage, installCore] at h
    split at h
    · exact installProceedPreserves env fuel ih s n sp r s' tr h k v hkn hk
    · split at h
      · exact installProceedPreserves env fuel ih s n sp r s' tr h k v hkn hk
      · split at h
        · cases h; exact hk
        · split at h
          · cases h; exact hk
          · cases h; exact hk
          · exact installProceedPreserves env fuel ih s n sp r s' tr h k v hkn hk

/-! ## Success facts for `install_package` -/

theorem depsLoop_some (recur : St → String → String → InstallResult × St × List Ev) :
    ∀ (deps : List (String × String)) (s : St) (tr : List Ev)
      (e : InstallResult) (s' : St) (tr' : List Ev),
      depsLoop recur deps s tr = (some e, s', tr') → e = .exn ∨ e = .outOfFuel := by
  intro deps
  induction deps with
  | nil => intro s tr e s' tr' h; cases h
  | cons dp rest ihd =>
    intro s tr e s' tr' h
    rcases dp with ⟨d, dsp⟩
    simp only [depsLoop] at h
    by_cases hd : alGet s.installed d = none
    · rw [if_pos hd] at h
      rcases hrec : recur s d dsp with ⟨rr, ss, trr⟩
      rw [hrec] at h
      cases rr with
      | exn => cases h; exact .inl rfl
      | outOfFuel => cases h; exact .inr rfl
      | alreadyInstalled => exact ihd ss _ e s' tr' h
      | notFound => exact ihd ss _ e s' tr' h
      | noMatching => exact ihd ss _ e s' tr' h
      | downloadFailed => exact ihd ss _ e s' tr' h
      | extractFailed => exact ihd ss _ e s' tr' h
      | installedNew => exact ihd ss _ e s' tr' h
    · rw [if_neg hd] at h
      exact ihd s tr e s' tr' h

/-- A successful `install_package` leaves a non-empty installed version for
the package in the config, and (unless the spec was `latest`) that version
satisfies the spec. -/
theorem installSuccessRecorded (env : Env) (fuel : Nat) (s : St) (n sp : String)
    (r : InstallResult) (s' : St) (tr : List Ev)
    (h : installPackage env fuel s n sp = (r, s', tr))
    (hsucc : r = .alreadyInstalled ∨ r = .installedNew) :
    ∃ v, alGet s'.installed n = some v ∧ v ≠ "" ∧
      (sp = "latest" ∨ version_satisfies v sp = .ok true) := by
  cases fuel with
  | zero =>
    cases h
    rcases hsucc with h' | h' <;> cases h'
  | succ fuel =>
    simp only [installPackage, installCore] at h
    have hproceed : installProceed env
        (fun st d dsp => installPackage env fuel st d dsp) s n sp = (r, s', tr) →
        ∃ v, alGet s'.installed n = some v ∧ v ≠ "" ∧
          (sp = "latest" ∨ version_satisfies v sp = .ok true) := by
      intro hp
      unfold installProceed at hp
      split at hp
      · cases hp; rcases hsucc with h' | h' <;> cases h'
      · rename_i a0 arest s1 tr1 heq
        split at hp
        · cases hp; rcases hsucc with h' | h' <;> cases h'
        · cases hp; rcases hsucc with h' | h' <;> cases h'
        · rename_i ver hver
          have hsat : sp = "latest" ∨ version_satisfies ver sp = .ok true := by
            by_cases hlat : sp = "latest"
            · exact .inl hlat
            · rw [if_neg hlat] at hver
              exact .inr (find_best_version_eq_some hver).1
          split at hp
          · cases hp; rcases hsucc with h' | h' <;> cases h'
          · rename_i hne
            split at hp
            · cases hp; rcases hsucc with h' | h' <;> cases h'
            · rename_i ar s2 tr2 heq2
              split at hp
              · cases hp; rcases hsucc with h' | h' <;> cases h'
              · rename_i s3 heq3
                split at hp
                · rename_i e s5 tr5 heq5
                  cases hp
                  rcases depsLoop_some _ _ _ _ _ _ _ heq5 with h' | h' <;>
                    (subst h'; rcases hsucc with h' | h' <;> cases h')
                · rename_i s5 tr5 heq5
                  cases hp
                  refine ⟨ver, ?_, hne, hsat⟩
                  have hset : alGet (alSet s3.installed n ver) n = some ver :=
                    alGet_alSet_self _ _ _
                  exact depsLoopPreserves _
                    (fun s d dsp r s' tr h => installPreserves env fuel s d dsp r s' tr h)
                    _ _ _ _ _ _ heq5 n ver hset
    split at h
    · exact hproceed h
    · rename_i iv hpre
      split at h
      · exact hproceed h
      · rename_i hiv
        split at h
        · rename_i hlat
          cases h
          exact ⟨iv, hpre, hiv, .inl hlat⟩
        · rename_i hlat
          split at h
          · cases h
            rcases hsucc with h' | h' <;> cases h'
          · rename_i hs
            cases h
            exact ⟨iv, hpre, hiv, .inr hs⟩
          · exact hproceed h

/-- The already-installed check (installer.py:190-194) short-circuits with no
state change and no events whenever the config holds a non-empty version that
is `latest`-requested or satisfies the spec. -/
theorem installAlreadyShortCircuit (env : Env) (f : Nat) (s : St) (name spec v : String)
    (h1 : alGet s.installed name = some v) (h2 : v ≠ "")
    (h3 : spec = "latest" ∨ version_satisfies v spec = .ok true) :
    installPackage env (f + 1) s name spec = (.alreadyInstalled, s, []) := by
  simp only [installPackage, installCore, h1]
  rw [if_neg h2]
  by_cases hlat : spec = "latest"
  · rw [if_pos hlat]
  · rw [if_neg hlat]
    rcases h3 with h3 | h3
    · exact absurd h3 hlat
    · rw [h3]

/-! ## Claim theorems -/

/-- C1: the claim says `update_package` uninstalls and reinstalls
unconditionally, bypassing the already-satisfied short-circuit.  The code is
buggy here: `remove_package` wipes only the directory and never clears the
config's installed entry, so the subsequent `install_package` returns through
the already-installed check.  At the failing input, `update_package` performs
no network fetch (empty event trace), leaves the package directory deleted,
and still records the package as installed. -/
theorem update_package_bug_at_failing_input :
    updatePackage envNone 5 c1State "A" =
      (.ran .alreadyInstalled, ⟨VERCEL_API, [("A", "latest")], [("A", "1.0.0")], []⟩, [])
  ∧ alGet (updatePackage envNone 5 c1State "A").2.1.modules "A" = none
  ∧ alGet (updatePackage envNone 5 c1State "A").2.1.installed "A" = some "1.0.0" := by
  decide

/-- C2 (counterexample): the claim says every failed extraction leaves the
destination absent or wiped and reports the failure.  A corrupt zip that
raises mid-extraction reports failure but leaves the destination partially
populated (one of two entries present, neither absent nor empty), and an
archive with an unsupported extension is reported as success. -/
theorem extract_failure_counterexample :
    (extractPackage c2zip st0 "p").1 = false
  ∧ alGet (extractPackage c2zip st0 "p").2.modules "p" = some [Ent.file ⟨"a.py", none⟩]
  ∧ (some [Ent.file ⟨"a.py", none⟩] : Option (List Ent)) ≠ none
  ∧ (some [Ent.file ⟨"a.py", none⟩] : Option (List Ent)) ≠ some []
  ∧ (extractPackage c2tar st0 "p").1 = true
  ∧ alGet (extractPackage c2tar st0 "p").2.modules "p" = some [] := by
  decide

/-- C2 (amended): on a mid-extraction failure of a supported archive,
`_extract_package` returns failure but leaves the entries extracted before
the raise in the destination directory (the wipe happens only at the start of
the NEXT extraction); an archive whose filename ends in neither `.zip` nor
`.tar.gz` is not extracted at all and reported as success over an emptied
directory. -/
theorem extract_failure_behavior :
    (∀ (ar : Archive) (s : St) (name : String) (k : Nat),
      (pyEndsWith ar.fname ".zip" || pyEndsWith ar.fname ".tar.gz") = true →
      ar.failAfter = some k →
      extractPackage ar s name =
        (false, { s with modules := alSet s.modules name (ar.entries.take k) }))
  ∧ (∀ (ar : Archive) (s : St) (name : String),
      (pyEndsWith ar.fname ".zip" || pyEndsWith ar.fname ".tar.gz") = false →
      extractPackage ar s name = (true, { s with modules := alSet s.modules name [] })) := by
  constructor
  · intro ar s name k hext hfail
    unfold extractPackage
    rw [if_pos hext, hfail]
  · intro ar s name hext
    unfold extractPackage
    rw [if_neg (by rw [hext]; exact Bool.false_ne_true)]

/-- C2 (witness): `extract_failure_behavior` applied to the corrupt zip and
to the unsupported-extension archive. -/
theorem extract_failure_behavior_witness :
    extractPackage c2zip st0 "p" =
      (false, { st0 with modules := alSet st0.modules "p" (c2zip.entries.take 1) })
  ∧ extractPackage c2tar st0 "p" =
      (true, { st0 with modules := alSet st0.modules "p" [] }) :=
  ⟨extract_failure_behavior.1 c2zip st0 "p" 1 (by decide) (by decide),
   extract_failure_behavior.2 c2tar st0 "p" (by decide)⟩

/-- C3 (counterexample): the claim says an exact spec is satisfied iff the
zero-padded triples agree, so that "1.0" satisfies the exact spec "1.0.0".
In the code exact matching is raw string equality: "1.0" and "1.0.0" have the
same zero-padded key yet `version_satisfies` rejects them. -/
theorem exact_spec_counterexample :
    version_satisfies "1.0" "1.0.0" = .ok false
  ∧ version_key "1.0" = version_key "1.0.0" := by
  decide

/-- C3 (amended): for a spec parsed with the exact operator, satisfaction is
plain string equality between the candidate and the spec's version text; no
parsing or zero-padding takes place. -/
theorem exact_spec_is_string_equality :
    ∀ (v s sv : String), parse_version_spec s = ("=", sv) →
      version_satisfies v s = .ok (v == sv) := by
  intro v s sv h
  simp only [version_satisfies, h]
  rfl

/-- C3 (witness): `exact_spec_is_string_equality` at candidate "1.0" and
spec "1.0". -/
theorem exact_spec_is_string_equality_witness :
    version_satisfies "1.0" "1.0" = .ok ("1.0" == "1.0") :=
  exact_spec_is_string_equality "1.0" "1.0" "1.0" (by decide)

/-- C4 (counterexample): the claim says that after an operation succeeds on
the secondary backend, later operations attempt that backend first.  After
`c4op1` succeeds on Netlify (recorded in `current_api`), the next `_try_apis`
call still attempts Vercel first and returns Vercel's result. -/
theorem failover_not_sticky_counterexample :
    (tryApis st0 c4op1).2.1.current_api = NETLIFY_API
  ∧ tryApis ((tryApis st0 c4op1).2.1) c4op2 = (some "from-vercel", st0, [VERCEL_API]) := by
  decide

/-- C4 (amended): `_try_apis` always attempts the backends in the fixed order
Vercel-then-Netlify; the `current_api` field records the last success but is
never consulted, so the result and the attempt sequence are independent of
the state, and every attempt sequence starts with the primary backend. -/
theorem failover_order_fixed :
    ∀ {α : Type} (s₁ s₂ : St) (op : String → Option α),
      (tryApis s₁ op).1 = (tryApis s₂ op).1
    ∧ (tryApis s₁ op).2.2 = (tryApis s₂ op).2.2
    ∧ (tryApis s₁ op).2.2.head? = some VERCEL_API := by
  intro α s₁ s₂ op
  rcases h1 : op VERCEL_API with _ | r1 <;> rcases h2 : op NETLIFY_API with _ | r2 <;>
    simp [tryApis, tryApisGo, API_LIST, h1, h2]

/-- C5 (counterexample): the claim says exhausting every backend yields a
RegistryUnavailable outcome distinct from PackageNotFound.  In the code
`_get_package_versions` catches the final exception and returns `[]`, so the
all-backends-failed run and the empty-version-list run produce the same
not-found outcome; no distinct outcome exists. -/
theorem registry_failure_counterexample :
    (installPackage envNone 1 st0 "pkg" "latest").1 = .notFound
  ∧ (installPackage envEmptyList 1 st0 "pkg" "latest").1 = .notFound := by
  decide

/-- C5 (amended): when the package is not recorded installed, failure of both
backends during version discovery is caught and reported as the same
PackageNotFound outcome produced when the primary backend returns an empty
version list; only the attempted-backend trace differs. -/
theorem registry_failure_reports_not_found :
    ∀ (env1 env2 : Env) (f : Nat) (s : St) (name spec : String),
      alGet s.installed name = none →
      env1.listVersions VERCEL_API name = none →
      env1.listVersions NETLIFY_API name = none →
      env2.listVersions VERCEL_API name = some [] →
      installPackage env1 (f + 1) s name spec =
        (.notFound, s, [.fetchVersions VERCEL_API name, .fetchVersions NETLIFY_API name])
    ∧ installPackage env2 (f + 1) s name spec =
        (.notFound, { s with current_api := VERCEL_API }, [.fetchVersions VERCEL_API name]) := by
  intro env1 env2 f s name spec hni h1 h2 h3
  constructor
  · simp [installPackage, installCore, hni, installProceed, getPackageVersions,
      tryApis, tryApisGo, API_LIST, h1, h2]
  · simp [installPackage, installCore, hni, installProceed, getPackageVersions,
      tryApis, tryApisGo, API_LIST, h3]

/-- C5 (witness): `registry_failure_reports_not_found` at the all-failing and
empty-list environments. -/
theorem registry_failure_reports_not_found_witness :
    installPackage envNone 1 st0 "pkg" "latest" =
      (.notFound, st0, [.fetchVersions VERCEL_API "pkg", .fetchVersions NETLIFY_API "pkg"])
  ∧ installPackage envEmptyList 1 st0 "pkg" "latest" =
      (.notFound, { st0 with current_api := VERCEL_API }, [.fetchVersions VERCEL_API "pkg"]) :=
  registry_failure_reports_not_found envNone envEmptyList 0 st0 "pkg" "latest" rfl rfl rfl rfl

/-- C6: `find_best_version` returns a satisfying element whose zero-padded
key is maximal among the satisfying candidates; it returns `none` exactly
when no candidate satisfies (given that nothing raises); first-occurrence
deduplication of the candidate list does not change the result; and on
`{1.0.0, 2.0.0, 1.5.0}` with spec `>=1.2.0` it returns `2.0.0`. -/
theorem find_best_version_returns_maximum :
    (∀ (l : List String) (spec r : String), find_best_version l spec = .ok (some r) →
      version_satisfies r spec = .ok true ∧ r ∈ l ∧
        ∀ v ∈ l, version_satisfies v spec = .ok true → pyListLe (keyD v) (keyD r) = true)
  ∧ (∀ (l : List String) (spec : String), find_best_version l spec = .ok none →
      ∀ v ∈ l, version_satisfies v spec ≠ .ok true)
  ∧ (∀ (l : List String) (spec : String),
      (∀ v ∈ l, (version_key v).isSome = true) →
      (∀ v ∈ l, version_satisfies v spec ≠ .error ()) →
      (∀ v ∈ l, version_satisfies v spec ≠ .ok true) →
      find_best_version l spec = .ok none)
  ∧ (∀ (l : List String) (spec : String),
      find_best_version (dedupF l) spec = find_best_version l spec)
  ∧ find_best_version ["1.0.0", "2.0.0", "1.5.0"] ">=1.2.0" = .ok (some "2.0.0") :=
  ⟨fun _ _ _ h => find_best_version_eq_some h,
   fun _ _ h => find_best_version_eq_none h,
   fun _ _ h1 h2 h3 => find_best_version_none_of h1 h2 h3,
   find_best_version_dedupF,
   by decide⟩

/-- C6 (witness): the maximality statement applied to the spec's own
example. -/
theorem find_best_version_returns_maximum_witness :
    version_satisfies "2.0.0" ">=1.2.0" = .ok true
  ∧ "2.0.0" ∈ (["1.0.0", "2.0.0", "1.5.0"] : List String) :=
  ⟨(find_best_version_returns_maximum.1 ["1.0.0", "2.0.0", "1.5.0"] ">=1.2.0" "2.0.0"
      (by decide)).1,
   (find_best_version_returns_maximum.1 ["1.0.0", "2.0.0", "1.5.0"] ">=1.2.0" "2.0.0"
      (by decide)).2.1⟩

/-- C7: after a successful `install_package` (already-satisfied or fresh
install), an immediate second call with the same name and spec terminates
through the already-installed check: same state, empty event trace (no
network or fetch work), for any positive fuel. -/
theorem install_package_idempotent :
    ∀ (env : Env) (fuel : Nat) (s : St) (name spec : String)
      (r : InstallResult) (s' : St) (tr : List Ev),
      installPackage env fuel s name spec = (r, s', tr) →
      (r = .alreadyInstalled ∨ r = .installedNew) →
      ∀ f : Nat, installPackage env (f + 1) s' name spec = (.alreadyInstalled, s', []) := by
  intro env fuel s name spec r s' tr h hsucc f
  rcases installSuccessRecorded env fuel s name spec r s' tr h hsucc with ⟨v, h1, h2, h3⟩
  exact installAlreadyShortCircuit env f s' name spec v h1 h2 h3

/-- C7 (witness): `install_package_idempotent` at a state with `A` already
recorded installed. -/
theorem install_package_idempotent_witness :
    installPackage envNone 1 c7State "A" "latest" = (.alreadyInstalled, c7State, []) :=
  install_package_idempotent envNone 1 c7State "A" "latest" .alreadyInstalled c7State []
    (by decide) (.inl rfl) 0

/-- C8: with `A` and `B` mutually dependent, `install_package("A", latest)`
terminates with both recorded installed exactly once each (in the config and
in the record-event trace), and the full event trace shows `A`'s version
recorded before the recursion into its dependency `B` begins. -/
theorem cyclic_dependencies_install_once :
    installPackage env8 4 st0 "A" "latest" =
      (.installedNew,
       ⟨VERCEL_API, [], [("A", "1.0.0"), ("B", "1.0.0")], [("A", metaA), ("B", metaB)]⟩,
       [.fetchVersions VERCEL_API "A", .fetchArchive VERCEL_API "A" "1.0.0",
        .record "A" "1.0.0",
        .fetchVersions VERCEL_API "B", .fetchArchive VERCEL_API "B" "1.0.0",
        .record "B" "1.0.0"])
  ∧ (installPackage env8 4 st0 "A" "latest").2.2.count (.record "A" "1.0.0") = 1
  ∧ (installPackage env8 4 st0 "A" "latest").2.2.count (.record "B" "1.0.0") = 1
  ∧ ((installPackage env8 4 st0 "A" "latest").2.1.installed.map Prod.fst).count "A" = 1
  ∧ ((installPackage env8 4 st0 "A" "latest").2.1.installed.map Prod.fst).count "B" = 1 := by
  decide

/-- C9 (counterexample): the claim says `parse_version_spec` fails on version
text that is not 1-3 dot-separated non-negative integers.  The function never
fails: on "abc", which is invalid per the spec's well-formedness, it returns
the exact-operator pair unchanged. -/
theorem parse_spec_counterexample :
    parse_version_spec "abc" = ("=", "abc") ∧ specValidVersionText "abc" = false := by
  decide

/-- C9 (amended): `parse_version_spec` is total and performs no validation:
it always returns one of the five operators, the `latest` operator appears
exactly for the stripped input "latest", and malformed or out-of-range
version text flows through unrejected (components beyond three and negative
components are accepted downstream by `version_satisfies`). -/
theorem parse_spec_total_shape :
    (∀ s : String, (parse_version_spec s).1 ∈ ([">=", "^", "~", "latest", "="] : List String))
  ∧ (∀ s : String, ((parse_version_spec s).1 = "latest" ↔ pyStrip s = "latest"))
  ∧ version_satisfies "1.2.3.4" ">=1.2" = .ok true
  ∧ version_satisfies "1.-2" ">=0" = .ok true := by
  refine ⟨?_, ?_, by decide, by decide⟩
  · intro s
    simp only [parse_version_spec]
    split
    · simp
    · split
      · simp
      · split
        · simp
        · split
          · simp
          · simp
  · intro s
    constructor
    · intro h
      simp only [parse_version_spec] at h
      split at h
      · simp at h
      · split at h
        · simp at h
        · split at h
          · simp at h
          · split at h
            · assumption
            · simp at h
    · intro h
      simp only [parse_version_spec, h]
      decide

/-- C9 (witness): `parse_spec_total_shape` at the input "^2". -/
theorem parse_spec_total_shape_witness :
    (parse_version_spec "^2").1 ∈ ([">=", "^", "~", "latest", "="] : List String) :=
  parse_spec_total_shape.1 "^2"

/-- C10 (counterexample): the claim says that only the comparison operators
raise and that exact/latest specs accept arbitrary strings without raising,
for `version_satisfies` and hence `find_best_version`.  But
`find_best_version` computes sort keys for every candidate regardless of the
operator, so it raises on a non-numeric candidate even under a `latest` spec;
and with an empty candidate list it does not raise even though the `>=`
spec's version text is malformed. -/
theorem satisfies_totality_counterexample :
    find_best_version ["abc"] "latest" = .error ()
  ∧ find_best_version [] ">=abc" = .ok none := by
  decide

/-- C10 (amended): `version_satisfies` raises exactly when the operator is
`>=`, `^` or `~` and some dot-separated component of the candidate or of the
spec's version text is not an integer; the exact and latest operators never
raise in `version_satisfies`.  `find_best_version`, however, raises on any
unparseable candidate in the list, whatever the operator. -/
theorem satisfies_raising_characterisation :
    (∀ v s : String,
      ((parse_version_spec s).1 = ">=" ∨ (parse_version_spec s).1 = "^" ∨
        (parse_version_spec s).1 = "~") →
      (version_satisfies v s = .error () ↔
        (parseParts v = none ∨ parseParts (parse_version_spec s).2 = none)))
  ∧ (∀ v s : String,
      ((parse_version_spec s).1 = "=" ∨ (parse_version_spec s).1 = "latest") →
      version_satisfies v s ≠ .error ())
  ∧ (∀ (l : List String) (s v : String), v ∈ l → parseParts v = none →
      find_best_version l s = .error ()) := by
  refine ⟨?_, ?_, ?_⟩
  · intro v s hop
    have hlat : (parse_version_spec s).1 ≠ "latest" := by
      rcases hop with h | h | h <;> rw [h] <;> decide
    have heq : (parse_version_spec s).1 ≠ "=" := by
      rcases hop with h | h | h <;> rw [h] <;> decide
    rcases hp : parse_version_spec s with ⟨op, sv⟩
    rw [hp] at hlat heq
    simp only at hlat heq
    simp only [version_satisfies, hp]
    rw [if_neg hlat, if_neg heq]
    rcases h1 : parseParts v with _ | vp <;> rcases h2 : parseParts sv with _ | svp
    · simp [hp]
    · simp [hp]
    · simp [hp]
    · rw [hp] at hop
      simp only at hop
      constructor
      · intro hc
        exfalso
        rcases hop with h | h | h <;> rw [h] at hc <;> simp at hc
      · intro hc
        rcases hc with hc | hc <;> simp at hc
  · intro v s hop
    rcases hp : parse_version_spec s with ⟨op, sv⟩
    rw [hp] at hop
    simp only at hop
    simp only [version_satisfies, hp]
    rcases hop with h | h
    · subst h
      simp
    · subst h
      simp
  · intro l s v hv hnone
    unfold find_best_version
    rw [if_neg]
    intro hall
    have := List.all_eq_true.mp hall v hv
    rw [version_key, hnone] at this
    simp at this

/-- C10 (witness): `satisfies_raising_characterisation` at concrete inputs:
a raising comparison, a non-raising exact match and a raising
`find_best_version` under a latest spec. -/
theorem satisfies_raising_characterisation_witness :
    version_satisfies "a" ">=1" = .error ()
  ∧ version_satisfies "a" "a" ≠ .error ()
  ∧ find_best_version ["a"] "latest" = .error () :=
  ⟨(satisfies_raising_characterisation.1 "a" ">=1" (.inl (by decide))).mpr (.inl (by decide)),
   satisfies_raising_characterisation.2.1 "a" "a" (.inl (by decide)),
   satisfies_raising_characterisation.2.2 ["a"] "latest" "a" (by decide) (by decide)⟩

end Snakeer
